import Mathlib

/-!
Shallow embedding of the blood-unit traceability ledger
(`RaktSetu/models/blockchain_traceability.py`) and proofs of its spec claims.

Modelling conventions:
* The SHA-256 digest is modelled as an arbitrary function `hashFn` from a
  block's hashed content (index, timestamp, data, previous_hash, nonce —
  exactly the keys serialized by `Block.calculate_hash`) to a string.
  All structural theorems are proved for every `hashFn`; concrete
  evaluations use the executable `demoHash` below.
* The proof-of-work loop in `Block.mine_block` (`while self.hash[:difficulty]
  != target`) has no termination bound in the source, so it is embedded with
  explicit fuel and returns `none` when the fuel runs out.
* Python's `datetime.now()` is nondeterministic, so every operation that
  stamps a time takes the timestamp as an explicit argument.
* Python dict lookups with defaults (`d.get(k, v)`) are embedded as
  `Option.getD` on optional fields.
-/

/-- The `test_results` dict as consulted by `add_testing_record`:
`get("passed", True)` and `get("technician_id", "LAB-001")` are the only
lookups performed, so the two keys are modelled as optional fields. -/
structure TestResults where
  passed : Option Bool
  technician_id : Option String
deriving DecidableEq, Repr

/-- One transaction dict. Every transaction built by the source sets the
keys `type`, `unit_id`, `status` and `timestamp`; kind-specific extra keys
(locations, temperatures, the nested test results, ...) are carried in
`test_results` and `extra` — they participate in hashing (via the abstract
digest over the block data) but are never read back by the queries. -/
structure Transaction where
  type : String
  unit_id : String
  status : String
  timestamp : String
  test_results : Option TestResults := none
  extra : List (String × String) := []
deriving DecidableEq, Repr

/-- The `data` dict of a block: the genesis block's data has no
`"transactions"` key, every mined block's data is `{"transactions": [...]}`. -/
inductive BlockData where
  | genesisData
  | txData (transactions : List Transaction)
deriving DecidableEq, Repr

/-- A block of the chain, with the same six fields as the Python `Block`. -/
structure Block where
  index : Nat
  timestamp : String
  data : BlockData
  previous_hash : String
  nonce : Nat
  hash : String
deriving DecidableEq, Repr

/-- The content hashed by `Block.calculate_hash`: the five keys
`index`, `timestamp`, `data`, `previous_hash`, `nonce` (the stored `hash`
itself is not part of the digest input). -/
structure BlockContent where
  index : Nat
  timestamp : String
  data : BlockData
  previous_hash : String
  nonce : Nat
deriving DecidableEq, Repr

def Block.content (b : Block) : BlockContent :=
  { index := b.index, timestamp := b.timestamp, data := b.data,
    previous_hash := b.previous_hash, nonce := b.nonce }

/-- Embedding of `Block.calculate_hash`: the digest of the canonical
serialization of the five content fields, abstracted by `hashFn`. -/
def calculate_hash (hashFn : BlockContent → String) (b : Block) : String :=
  hashFn b.content

/-- Embedding of `Block.__init__(index, timestamp, data, previous_hash)`:
nonce starts at 0 and the hash is computed immediately. -/
def mkBlock (hashFn : BlockContent → String) (index : Nat) (timestamp : String)
    (data : BlockData) (previous_hash : String) : Block :=
  let b0 : Block :=
    { index := index, timestamp := timestamp, data := data,
      previous_hash := previous_hash, nonce := 0, hash := "" }
  { b0 with hash := calculate_hash hashFn b0 }

/-- Python's string slice `s[:n]`: the first `n` characters. -/
def strTake (s : String) (n : Nat) : String :=
  String.mk (s.data.take n)

/-- The mining target `"0" * difficulty`. -/
def zeros (difficulty : Nat) : String :=
  String.mk (List.replicate difficulty '0')

/-- One iteration of the mining loop body:
`self.nonce += 1; self.hash = self.calculate_hash()`. -/
def bump (hashFn : BlockContent → String) (b : Block) : Block :=
  let b1 : Block := { b with nonce := b.nonce + 1 }
  { b1 with hash := calculate_hash hashFn b1 }

/-- Embedding of `Block.mine_block(difficulty)`: loop until the hash's first
`difficulty` characters are all `'0'`; `fuel` bounds the unbounded Python
`while` loop, `none` meaning the bound was hit before the target. -/
def mine_block (hashFn : BlockContent → String) (difficulty : Nat) :
    Nat → Block → Option Block
  | 0, b =>
      if strTake b.hash difficulty = zeros difficulty then some b else none
  | Nat.succ fuel, b =>
      if strTake b.hash difficulty = zeros difficulty then some b
      else mine_block hashFn difficulty fuel (bump hashFn b)

/-- The ledger: `chain`, `pending_transactions` and `difficulty`, as in
`BloodUnitBlockchain.__init__`. -/
structure BloodUnitBlockchain where
  chain : List Block
  pending_transactions : List Transaction
  difficulty : Nat
deriving DecidableEq, Repr

namespace BloodUnitBlockchain

/-- Embedding of `BloodUnitBlockchain.__init__` together with
`create_genesis_block`: difficulty 2, and the genesis block (index 0,
previous_hash `"0"`, data without a `"transactions"` key) is mined and
appended. `none` when the mining fuel runs out. -/
def create (hashFn : BlockContent → String) (fuel : Nat) (ts : String) :
    Option BloodUnitBlockchain :=
  (mine_block hashFn 2 fuel (mkBlock hashFn 0 ts BlockData.genesisData "0")).map
    (fun g => { chain := [g], pending_transactions := [], difficulty := 2 })

/-- Embedding of `add_transaction`: append to the pending buffer. -/
def add_transaction (t : Transaction) (bc : BloodUnitBlockchain) :
    BloodUnitBlockchain :=
  { bc with pending_transactions := bc.pending_transactions ++ [t] }

/-- Embedding of `mine_pending_transactions`. The outer `Option` is the
mining fuel (an artifact of embedding the unbounded loop); the inner
`Option Block` is the Python return value — `none` is the `return None`
taken when the pending buffer is empty. The empty-chain case cannot arise
for ledgers built by `create` (Python would raise on `chain[-1]`). -/
def mine_pending_transactions (hashFn : BlockContent → String) (fuel : Nat)
    (ts : String) (bc : BloodUnitBlockchain) :
    Option (BloodUnitBlockchain × Option Block) :=
  if bc.pending_transactions = [] then some (bc, none)
  else
    match bc.chain.getLast? with
    | none => none
    | some lastB =>
        match mine_block hashFn bc.difficulty fuel
            (mkBlock hashFn bc.chain.length ts
              (BlockData.txData bc.pending_transactions) lastB.hash) with
        | none => none
        | some nb =>
            some ({ bc with chain := bc.chain ++ [nb],
                            pending_transactions := [] }, some nb)

end BloodUnitBlockchain

/-- The transaction dict built by `add_testing_record`:
`status` is `"tested"` when `test_results.get("passed", True)` is truthy
and `"rejected"` otherwise; `tested_by` defaults to `"LAB-001"`. -/
def mkTestingTransaction (unit_id : String) (results : TestResults)
    (ts : String) : Transaction :=
  { type := "TESTING", unit_id := unit_id,
    status := if results.passed.getD true then "tested" else "rejected",
    timestamp := ts,
    test_results := some results,
    extra := [("tested_by", results.technician_id.getD "LAB-001")] }

/-- The transactions of a block: `block.data["transactions"]` when the key
is present (`"transactions" in block.data`), nothing for the genesis data. -/
def txsOf (b : Block) : List Transaction :=
  match b.data with
  | BlockData.genesisData => []
  | BlockData.txData l => l

/-- An entry of `get_unit_history`: the matching transaction annotated with
the owning block's index and hash. -/
structure HistoryEntry where
  block_index : Nat
  block_hash : String
  transaction : Transaction
deriving DecidableEq, Repr

/-- The dict returned by `verify_unit_authenticity`. The three keys that
appear only in the found case are optional. -/
structure VerifyResult where
  verified : Bool
  message : String
  unit_id : String
  total_records : Option Nat := none
  current_status : Option String := none
  blockchain_valid : Option Bool := none
deriving DecidableEq, Repr

/-- Lexicographic comparison of character lists, as Python compares
strings by code point. -/
def strLeAux : List Char → List Char → Bool
  | [], _ => true
  | _ :: _, [] => false
  | a :: s, b :: t =>
      if a < b then true
      else if b < a then false
      else strLeAux s t

/-- Python's `<=` on strings: lexicographic by code point. -/
def pyLe (s t : String) : Bool :=
  strLeAux s.data t.data

/-- An entry of `get_audit_trail`: the six keys appended per transaction. -/
structure AuditRecord where
  block : Nat
  timestamp : String
  type : String
  unit_id : String
  status : String
  block_hash : String
deriving DecidableEq, Repr

namespace BloodUnitBlockchain

/-- Embedding of `add_testing_record(unit_id, test_results)`: build the
TESTING transaction, `add_transaction`, then `mine_pending_transactions`. -/
def add_testing_record (hashFn : BlockContent → String) (fuel : Nat)
    (tsRec tsBlock : String) (unit_id : String) (results : TestResults)
    (bc : BloodUnitBlockchain) : Option (BloodUnitBlockchain × Option Block) :=
  mine_pending_transactions hashFn fuel tsBlock
    (add_transaction (mkTestingTransaction unit_id results tsRec) bc)

/-- Embedding of `get_unit_history(unit_id)`: the Python loop accumulating
`history.append(...)` over all blocks and their transactions. -/
def get_unit_history (unit_id : String) (bc : BloodUnitBlockchain) :
    List HistoryEntry :=
  bc.chain.foldl
    (fun acc b =>
      (txsOf b).foldl
        (fun acc2 t =>
          if t.unit_id = unit_id then
            acc2 ++ [{ block_index := b.index, block_hash := b.hash,
                       transaction := t }]
          else acc2)
        acc)
    []

/-- Embedding of the `is_chain_valid` loop body for indices `1, ...`:
`prev` is `chain[i-1]`, the list holds `chain[i], chain[i+1], ...`. -/
def validFrom (hashFn : BlockContent → String) : Block → List Block → Bool
  | _, [] => true
  | prev, cur :: rest =>
      if cur.hash ≠ calculate_hash hashFn cur then false
      else if cur.previous_hash ≠ prev.hash then false
      else validFrom hashFn cur rest

/-- The `is_chain_valid` loop over a chain given as a list. -/
def chainValid (hashFn : BlockContent → String) : List Block → Bool
  | [] => true
  | b :: rest => validFrom hashFn b rest

/-- Embedding of `is_chain_valid`: for `i` in `range(1, len(chain))` check
the stored hash against the recomputed hash and the linkage to block
`i - 1`; chains of length 0 or 1 are vacuously valid. -/
def is_chain_valid (hashFn : BlockContent → String)
    (bc : BloodUnitBlockchain) : Bool :=
  chainValid hashFn bc.chain

/-- Embedding of `verify_unit_authenticity(unit_id)`. -/
def verify_unit_authenticity (hashFn : BlockContent → String)
    (unit_id : String) (bc : BloodUnitBlockchain) : VerifyResult :=
  let history := get_unit_history unit_id bc
  if history = [] then
    { verified := false, message := "Unit ID not found in blockchain",
      unit_id := unit_id }
  else
    let is_valid := is_chain_valid hashFn bc
    { verified := is_valid,
      message := if is_valid then "Unit verified and authentic"
                 else "Blockchain compromised!",
      unit_id := unit_id,
      total_records := some history.length,
      current_status := some (match history.getLast? with
        | some e => e.transaction.status
        | none => "unknown"),
      blockchain_valid := some is_valid }

/-- Membership test plus insertion, modelling `units.add(...)` on the
Python `set` (insertion order stands in for the set's arbitrary order;
all the claims about the result are order-independent). -/
def addUnit (units : List String) (u : String) : List String :=
  if u ∈ units then units else units ++ [u]

/-- Embedding of `get_units_by_status(status)`: scan every transaction of
every block, collecting the `unit_id`s whose `status` matches. -/
def get_units_by_status (status : String) (bc : BloodUnitBlockchain) :
    List String :=
  bc.chain.foldl
    (fun acc b =>
      (txsOf b).foldl
        (fun acc2 t => if t.status = status then addUnit acc2 t.unit_id else acc2)
        acc)
    []

/-- Embedding of `get_audit_trail(start_date, end_date)`: note the filter
`start_date <= block_time <= end_date` is on `block.timestamp`, while the
emitted `timestamp` field is the transaction's own timestamp. -/
def get_audit_trail (start_date end_date : String)
    (bc : BloodUnitBlockchain) : List AuditRecord :=
  bc.chain.foldl
    (fun acc b =>
      if pyLe start_date b.timestamp && pyLe b.timestamp end_date then
        (txsOf b).foldl
          (fun acc2 t =>
            acc2 ++ [{ block := b.index, timestamp := t.timestamp,
                       type := t.type, unit_id := t.unit_id,
                       status := t.status, block_hash := b.hash }])
          acc
      else acc)
    []

end BloodUnitBlockchain

/-- Annotation shared by the history and audit spec functions. -/
def auditEntry (b : Block) (t : Transaction) : AuditRecord :=
  { block := b.index, timestamp := t.timestamp, type := t.type,
    unit_id := t.unit_id, status := t.status, block_hash := b.hash }

/-- Restatement of `get_unit_history` as a filter over the chain, used to
express "matching records in chain order" claims. -/
def unitHistorySpec (unit_id : String) (bc : BloodUnitBlockchain) :
    List HistoryEntry :=
  bc.chain.flatMap (fun b =>
    ((txsOf b).filter (fun t => t.unit_id = unit_id)).map (fun t =>
      { block_index := b.index, block_hash := b.hash, transaction := t }))

/-- Modelled from the spec claim for `AuditTrail`: records whose RECORD
timestamp lies inclusively within the range, in chain order, annotated
with the owning block's index and hash. Written from the claim's words,
for comparison with the source's `get_audit_trail`. -/
def auditTrailRecordTsSpec (start_date end_date : String)
    (bc : BloodUnitBlockchain) : List AuditRecord :=
  bc.chain.flatMap (fun b =>
    ((txsOf b).filter (fun t =>
        pyLe start_date t.timestamp && pyLe t.timestamp end_date)).map
      (auditEntry b))

/-- The filter the source actually applies: keep all records of the blocks
whose BLOCK timestamp lies inclusively within the range. -/
def auditTrailBlockTsSpec (start_date end_date : String)
    (bc : BloodUnitBlockchain) : List AuditRecord :=
  bc.chain.flatMap (fun b =>
    if pyLe start_date b.timestamp && pyLe b.timestamp end_date then
      (txsOf b).map (auditEntry b)
    else [])

/-! ### A concrete executable digest for witnesses and counterexamples

`demoHash` is a small stand-in digest: it mixes every content field into a
number and renders it with zero, one or two leading `'0'` characters, so
that mining at difficulty 2 succeeds after a few nonce steps.  Every
structural theorem below is proved for an arbitrary `hashFn`; `demoHash`
is used only to build concrete ledgers. -/

def strCode (s : String) : Nat :=
  s.data.foldl (fun a c => a * 131 + c.toNat) 7

def testResultsCode : Option TestResults → Nat
  | none => 1
  | some r =>
      (match r.passed with | none => 3 | some true => 4 | some false => 5) * 131 +
      (match r.technician_id with | none => 11 | some s => strCode s)

def extraCode (l : List (String × String)) : Nat :=
  l.foldl (fun a p => (a * 131 + strCode p.1) * 131 + strCode p.2) 13

def trCode (t : Transaction) : Nat :=
  ((((strCode t.type * 131 + strCode t.unit_id) * 131 + strCode t.status)
      * 131 + strCode t.timestamp) * 131 + testResultsCode t.test_results)
    * 131 + extraCode t.extra

def dataCode : BlockData → Nat
  | BlockData.genesisData => 2
  | BlockData.txData l => 3 + l.foldl (fun a t => a * 1009 + trCode t) 5

def contentCode (c : BlockContent) : Nat :=
  (((c.index + 1) * 1009 + strCode c.timestamp) * 1009 + dataCode c.data)
      * 1009 * 1009
    + strCode c.previous_hash * 1009 + c.nonce

def demoHash (c : BlockContent) : String :=
  let n := contentCode c % 1000
  (if n % 9 = 0 then "00" else if n % 3 = 0 then "0" else "") ++ toString n

/-- An empty fallback ledger for extracting concrete ledgers from `Option`. -/
def emptyLedger : BloodUnitBlockchain :=
  { chain := [], pending_transactions := [], difficulty := 2 }

/-- A concrete COLLECTION transaction. -/
def demoTx : Transaction :=
  { type := "COLLECTION", unit_id := "U1", status := "collected",
    timestamp := "t2" }

/-- A freshly created concrete ledger (genesis only). -/
def ledger1 : BloodUnitBlockchain :=
  (BloodUnitBlockchain.create demoHash 60 "t0").getD emptyLedger

/-- The concrete ledger after appending `demoTx` and sealing at time `"t1"`. -/
def ledger2 : BloodUnitBlockchain :=
  ((BloodUnitBlockchain.mine_pending_transactions demoHash 60 "t1"
      (ledger1.add_transaction demoTx)).map Prod.fst).getD emptyLedger

/-- The block sealed by the step from `ledger1` to `ledger2`. -/
def minedBlock2 : Block :=
  ((BloodUnitBlockchain.mine_pending_transactions demoHash 60 "t1"
      (ledger1.add_transaction demoTx)).bind Prod.snd).getD
    (mkBlock demoHash 0 "" BlockData.genesisData "")

/-- Tampering with the sealed genesis block of `ledger2`: its `data` field
is overwritten (a forged transaction list) while its stored hash and the
rest of the chain stay untouched. -/
def ledger2TamperedGenesis : BloodUnitBlockchain :=
  { ledger2 with
    chain :=
      match ledger2.chain with
      | [] => []
      | g :: rest => { g with data := BlockData.txData [demoTx] } :: rest }

/-! ### Invariants, reachability and tampering -/

/-- The stored hash of a block agrees with its recomputed hash. -/
def hashOk (hashFn : BlockContent → String) (b : Block) : Prop :=
  b.hash = calculate_hash hashFn b

/-- Adjacent linkage: each block's `previous_hash` is the previous block's
stored hash. -/
def Linked : List Block → Prop
  | [] => True
  | [_] => True
  | a :: b :: rest => b.previous_hash = a.hash ∧ Linked (b :: rest)

/-- The chain-wide invariant maintained by the ledger operations: a
non-empty chain, every block's stored hash correct (the genesis block
included), and adjacent linkage throughout. -/
def GoodLedger (hashFn : BlockContent → String)
    (bc : BloodUnitBlockchain) : Prop :=
  bc.chain ≠ [] ∧ (∀ b ∈ bc.chain, hashOk hashFn b) ∧ Linked bc.chain

/-- Ledger states reachable through the public operations: `Create`
(construction with genesis), `Append` (`add_transaction` — the
`add_*_record` operations are `add_transaction` followed by `Seal`, so
their results are also reachable), and `Seal`
(`mine_pending_transactions`), with no external mutation. -/
inductive Reachable (hashFn : BlockContent → String) :
    BloodUnitBlockchain → Prop
  | create (fuel : Nat) (ts : String) (bc : BloodUnitBlockchain)
      (h : BloodUnitBlockchain.create hashFn fuel ts = some bc) :
      Reachable hashFn bc
  | append (t : Transaction) (bc : BloodUnitBlockchain)
      (h : Reachable hashFn bc) :
      Reachable hashFn (bc.add_transaction t)
  | sealStep (fuel : Nat) (ts : String) (bc bc' : BloodUnitBlockchain)
      (r : Option Block) (h : Reachable hashFn bc)
      (hs : bc.mine_pending_transactions hashFn fuel ts = some (bc', r)) :
      Reachable hashFn bc'

/-- One of the six stored fields of a block has been overwritten with a
different value, the remaining five left as they were. -/
def OneFieldChanged (b b' : Block) : Prop :=
  (b'.index ≠ b.index ∧ b' = { b with index := b'.index }) ∨
  (b'.timestamp ≠ b.timestamp ∧ b' = { b with timestamp := b'.timestamp }) ∨
  (b'.data ≠ b.data ∧ b' = { b with data := b'.data }) ∨
  (b'.previous_hash ≠ b.previous_hash ∧
      b' = { b with previous_hash := b'.previous_hash }) ∨
  (b'.nonce ≠ b.nonce ∧ b' = { b with nonce := b'.nonce }) ∨
  (b'.hash ≠ b.hash ∧ b' = { b with hash := b'.hash })

instance (b b' : Block) : Decidable (OneFieldChanged b b') := by
  unfold OneFieldChanged
  exact inferInstance

/-- The dict produced by `Block.to_dict`: the six stored fields. -/
structure BlockDict where
  index : Nat
  timestamp : String
  data : BlockData
  previous_hash : String
  hash : String
  nonce : Nat
deriving DecidableEq, Repr

/-- Embedding of `Block.to_dict`. -/
def Block.to_dict (b : Block) : BlockDict :=
  { index := b.index, timestamp := b.timestamp, data := b.data,
    previous_hash := b.previous_hash, hash := b.hash, nonce := b.nonce }

/-- Recomputing the canonical hash from the fields of an exported dict
(the same five keys `calculate_hash` serializes). -/
def hashFromDict (hashFn : BlockContent → String) (d : BlockDict) : String :=
  hashFn { index := d.index, timestamp := d.timestamp, data := d.data,
           previous_hash := d.previous_hash, nonce := d.nonce }

/-! ### Further concrete fixtures for witnesses -/

/-- The sealed block at index 1 of `ledger2` with only its nonce
overwritten — a single-field mutation of a non-genesis block. -/
def tamperedMined : Block :=
  { minedBlock2 with nonce := minedBlock2.nonce + 9 }

/-- Failing test results: the `"passed"` key is present and false. -/
def resultsFailed : TestResults :=
  { passed := some false, technician_id := none }

/-- Test results without a `"passed"` key. -/
def resultsNoPassed : TestResults :=
  { passed := none, technician_id := some "T9" }

/-- The result of `add_testing_record` with failing results on `ledger2`. -/
def testingStepFailed : Option (BloodUnitBlockchain × Option Block) :=
  ledger2.add_testing_record demoHash 60 "t3" "t4" "U1" resultsFailed

def ledger3 : BloodUnitBlockchain :=
  (testingStepFailed.map Prod.fst).getD emptyLedger

def minedBlock3 : Block :=
  (testingStepFailed.bind Prod.snd).getD
    (mkBlock demoHash 0 "" BlockData.genesisData "")

/-- The result of `add_testing_record` without a `"passed"` key, on
`ledger3`. -/
def testingStepNoPassed : Option (BloodUnitBlockchain × Option Block) :=
  ledger3.add_testing_record demoHash 60 "t5" "t6" "U1" resultsNoPassed

def ledger4 : BloodUnitBlockchain :=
  (testingStepNoPassed.map Prod.fst).getD emptyLedger

def minedBlock4 : Block :=
  (testingStepNoPassed.bind Prod.snd).getD
    (mkBlock demoHash 0 "" BlockData.genesisData "")

/-! ## Lemmas -/

open BloodUnitBlockchain

theorem bump_hashOk (hashFn : BlockContent → String) (b : Block) :
    hashOk hashFn (bump hashFn b) := rfl

theorem mkBlock_hashOk (hashFn : BlockContent → String) (i : Nat)
    (ts : String) (d : BlockData) (p : String) :
    hashOk hashFn (mkBlock hashFn i ts d p) := rfl

theorem mine_block_hashOk (hashFn : BlockContent → String) (d : Nat) :
    ∀ (fuel : Nat) (b b' : Block), hashOk hashFn b →
      mine_block hashFn d fuel b = some b' → hashOk hashFn b' := by
  intro fuel
  induction fuel with
  | zero =>
      intro b b' hok h
      unfold mine_block at h
      split at h
      · cases h; exact hok
      · cases h
  | succ f ih =>
      intro b b' hok h
      unfold mine_block at h
      split at h
      · cases h; exact hok
      · exact ih (bump hashFn b) b' (bump_hashOk hashFn b) h

theorem mine_block_fields (hashFn : BlockContent → String) (d : Nat) :
    ∀ (fuel : Nat) (b b' : Block), mine_block hashFn d fuel b = some b' →
      b'.index = b.index ∧ b'.timestamp = b.timestamp ∧ b'.data = b.data ∧
        b'.previous_hash = b.previous_hash := by
  intro fuel
  induction fuel with
  | zero =>
      intro b b' h
      unfold mine_block at h
      split at h
      · cases h; exact ⟨rfl, rfl, rfl, rfl⟩
      · cases h
  | succ f ih =>
      intro b b' h
      unfold mine_block at h
      split at h
      · cases h; exact ⟨rfl, rfl, rfl, rfl⟩
      · exact ih (bump hashFn b) b' h

theorem mine_block_target (hashFn : BlockContent → String) (d : Nat) :
    ∀ (fuel : Nat) (b b' : Block), mine_block hashFn d fuel b = some b' →
      strTake b'.hash d = zeros d := by
  intro fuel
  induction fuel with
  | zero =>
      intro b b' h
      unfold mine_block at h
      split at h
      case isTrue ht => cases h; exact ht
      case isFalse => cases h
  | succ f ih =>
      intro b b' h
      unfold mine_block at h
      split at h
      case isTrue ht => cases h; exact ht
      case isFalse => exact ih (bump hashFn b) b' h

theorem linked_concat :
    ∀ (l : List Block) (lb nb : Block), Linked l → l.getLast? = some lb →
      nb.previous_hash = lb.hash → Linked (l ++ [nb]) := by
  intro l
  induction l with
  | nil => intro lb nb _ h; cases h
  | cons a tail ih =>
      intro lb nb hL hlast hprev
      cases tail with
      | nil =>
          rw [List.getLast?_singleton] at hlast
          cases hlast
          exact ⟨hprev, trivial⟩
      | cons b rest =>
          rw [List.getLast?_cons_cons] at hlast
          exact ⟨hL.1, ih lb nb hL.2 hlast hprev⟩

theorem linked_get :
    ∀ (c : List Block), Linked c → ∀ (i : Nat) (h : i + 1 < c.length),
      (c.get ⟨i + 1, h⟩).previous_hash
        = (c.get ⟨i, Nat.lt_of_succ_lt h⟩).hash := by
  intro c
  induction c with
  | nil => intro _ i h; simp at h
  | cons a tail ih =>
      intro hL i h
      cases tail with
      | nil => simp at h
      | cons b rest =>
          cases i with
          | zero => exact hL.1
          | succ j =>
              have hj : j + 1 < (b :: rest).length := by
                simpa [Nat.succ_lt_succ_iff] using h
              exact ih hL.2 j hj

theorem linked_cons_cons (a b : Block) (l : List Block) :
    Linked (a :: b :: l) ↔ b.previous_hash = a.hash ∧ Linked (b :: l) :=
  Iff.rfl

theorem validFrom_eq_true_iff (hashFn : BlockContent → String) :
    ∀ (l : List Block) (p : Block),
      validFrom hashFn p l = true ↔
        (∀ b ∈ l, hashOk hashFn b) ∧ Linked (p :: l) := by
  intro l
  induction l with
  | nil =>
      intro p
      simp [validFrom, Linked]
  | cons c rest ih =>
      intro p
      show (if c.hash ≠ calculate_hash hashFn c then false
            else if c.previous_hash ≠ p.hash then false
            else validFrom hashFn c rest) = true ↔ _
      rw [linked_cons_cons]
      by_cases h1 : c.hash = calculate_hash hashFn c
      · rw [if_neg (not_not_intro h1)]
        by_cases h2 : c.previous_hash = p.hash
        · rw [if_neg (not_not_intro h2), ih c]
          constructor
          · rintro ⟨hall, hlink⟩
            exact ⟨List.forall_mem_cons.mpr ⟨h1, hall⟩, h2, hlink⟩
          · rintro ⟨hall, _, hlink⟩
            exact ⟨(List.forall_mem_cons.mp hall).2, hlink⟩
        · rw [if_pos h2]
          constructor
          · intro h; cases h
          · rintro ⟨_, hlk, _⟩
            exact absurd hlk h2
      · rw [if_pos h1]
        constructor
        · intro h; cases h
        · rintro ⟨hall, _⟩
          exact absurd (List.forall_mem_cons.mp hall).1 h1

theorem chainValid_iff (hashFn : BlockContent → String) (c : List Block) :
    chainValid hashFn c = true ↔
      (∀ b ∈ c.tail, hashOk hashFn b) ∧ Linked c := by
  cases c with
  | nil => simp [chainValid, Linked]
  | cons a t =>
      show validFrom hashFn a t = true ↔ _
      rw [validFrom_eq_true_iff]
      rfl

theorem chainValid_hashOk_get (hashFn : BlockContent → String)
    (c : List Block) (hv : chainValid hashFn c = true) (i : Nat)
    (h : i + 1 < c.length) : hashOk hashFn (c.get ⟨i + 1, h⟩) := by
  obtain ⟨ht, _⟩ := (chainValid_iff hashFn c).mp hv
  cases c with
  | nil => simp at h
  | cons a t =>
      rw [List.get_cons_succ]
      exact ht _ (List.get_mem t i _)

theorem chainValid_link_get (hashFn : BlockContent → String)
    (c : List Block) (hv : chainValid hashFn c = true) (i : Nat)
    (h : i + 1 < c.length) :
    (c.get ⟨i + 1, h⟩).previous_hash
      = (c.get ⟨i, Nat.lt_of_succ_lt h⟩).hash :=
  linked_get c ((chainValid_iff hashFn c).mp hv).2 i h

theorem chainValid_of_good (hashFn : BlockContent → String)
    (c : List Block) (hall : ∀ b ∈ c, hashOk hashFn b) (hl : Linked c) :
    chainValid hashFn c = true := by
  rw [chainValid_iff]
  exact ⟨fun b hb => hall b (List.tail_subset c hb), hl⟩

theorem mine_pending_nopend (hashFn : BlockContent → String) (fuel : Nat)
    (ts : String) (bc : BloodUnitBlockchain)
    (h : bc.pending_transactions = []) :
    bc.mine_pending_transactions hashFn fuel ts = some (bc, none) := by
  unfold BloodUnitBlockchain.mine_pending_transactions
  rw [if_pos h]

theorem mine_pending_spec (hashFn : BlockContent → String) (fuel : Nat)
    (ts : String) (bc bc' : BloodUnitBlockchain) (r : Option Block)
    (hpend : bc.pending_transactions ≠ [])
    (hs : bc.mine_pending_transactions hashFn fuel ts = some (bc', r)) :
    ∃ b lastB, r = some b ∧ bc.chain.getLast? = some lastB ∧
      b.index = bc.chain.length ∧ b.timestamp = ts ∧
      b.data = BlockData.txData bc.pending_transactions ∧
      b.previous_hash = lastB.hash ∧ hashOk hashFn b ∧
      strTake b.hash bc.difficulty = zeros bc.difficulty ∧
      bc'.chain = bc.chain ++ [b] ∧ bc'.pending_transactions = [] ∧
      bc'.difficulty = bc.difficulty := by
  unfold BloodUnitBlockchain.mine_pending_transactions at hs
  rw [if_neg hpend] at hs
  split at hs
  · cases hs
  · rename_i lastB hlast
    split at hs
    · cases hs
    · rename_i nb hm
      simp only [Option.some.injEq, Prod.mk.injEq] at hs
      obtain ⟨hbc, hr⟩ := hs
      obtain ⟨hidx, hts, hdata, hprev⟩ := mine_block_fields hashFn
        bc.difficulty fuel _ nb hm
      refine ⟨nb, lastB, hr.symm, hlast, ?_, ?_, ?_, ?_, ?_, ?_, ?_, ?_, ?_⟩
      · exact hidx
      · exact hts
      · exact hdata
      · exact hprev
      · exact mine_block_hashOk hashFn bc.difficulty fuel _ nb
          (mkBlock_hashOk hashFn _ _ _ _) hm
      · exact mine_block_target hashFn bc.difficulty fuel _ nb hm
      · rw [← hbc]
      · rw [← hbc]
      · rw [← hbc]

theorem good_create (hashFn : BlockContent → String) (fuel : Nat)
    (ts : String) (bc : BloodUnitBlockchain)
    (hc : BloodUnitBlockchain.create hashFn fuel ts = some bc) :
    GoodLedger hashFn bc := by
  unfold BloodUnitBlockchain.create at hc
  rw [Option.map_eq_some'] at hc
  obtain ⟨g, hm, hbc⟩ := hc
  subst hbc
  refine ⟨by simp, ?_, trivial⟩
  intro b hb
  rw [List.mem_singleton] at hb
  subst hb
  exact mine_block_hashOk hashFn 2 fuel _ b (mkBlock_hashOk hashFn _ _ _ _) hm

theorem good_add_transaction (hashFn : BlockContent → String)
    (t : Transaction) (bc : BloodUnitBlockchain)
    (hg : GoodLedger hashFn bc) :
    GoodLedger hashFn (bc.add_transaction t) := hg

theorem good_seal (hashFn : BlockContent → String) (fuel : Nat) (ts : String)
    (bc bc' : BloodUnitBlockchain) (r : Option Block)
    (hg : GoodLedger hashFn bc)
    (hs : bc.mine_pending_transactions hashFn fuel ts = some (bc', r)) :
    GoodLedger hashFn bc' := by
  by_cases hp : bc.pending_transactions = []
  · rw [mine_pending_nopend hashFn fuel ts bc hp] at hs
    simp only [Option.some.injEq, Prod.mk.injEq] at hs
    rw [← hs.1]
    exact hg
  · obtain ⟨b, lastB, _, hlast, _, _, _, hprev, hok, _, hchain, _, _⟩ :=
      mine_pending_spec hashFn fuel ts bc bc' r hp hs
    obtain ⟨hne, hall, hlink⟩ := hg
    refine ⟨?_, ?_, ?_⟩
    · rw [hchain]; simp
    · intro x hx
      rw [hchain, List.mem_append] at hx
      rcases hx with hx | hx
      · exact hall x hx
      · rw [List.mem_singleton] at hx
        subst hx
        exact hok
    · rw [hchain]
      exact linked_concat bc.chain lastB b hlink hlast hprev

theorem good_reachable (hashFn : BlockContent → String)
    (bc : BloodUnitBlockchain) (h : Reachable hashFn bc) :
    GoodLedger hashFn bc := by
  induction h with
  | create fuel ts bc hc => exact good_create hashFn fuel ts bc hc
  | append t bc _ ih => exact good_add_transaction hashFn t bc ih
  | sealStep fuel ts bc bc' r _ hs ih =>
      exact good_seal hashFn fuel ts bc bc' r ih hs

theorem unit_history_inner (uid : String) (bi : Nat) (bh : String) :
    ∀ (ts : List Transaction) (init : List HistoryEntry),
      ts.foldl
        (fun acc2 t =>
          if t.unit_id = uid then
            acc2 ++ [{ block_index := bi, block_hash := bh, transaction := t }]
          else acc2)
        init
      = init ++ (ts.filter (fun t => t.unit_id = uid)).map
          (fun t => { block_index := bi, block_hash := bh, transaction := t }) := by
  intro ts
  induction ts with
  | nil => intro init; simp
  | cons t rest ih =>
      intro init
      by_cases h : t.unit_id = uid
      · simp [h, ih]
      · simp [h, ih]

theorem get_unit_history_eq_spec (uid : String) (bc : BloodUnitBlockchain) :
    bc.get_unit_history uid = unitHistorySpec uid bc := by
  show bc.chain.foldl _ [] = _
  unfold unitHistorySpec
  suffices h : ∀ (l : List Block) (init : List HistoryEntry),
      l.foldl
        (fun acc b =>
          (txsOf b).foldl
            (fun acc2 t =>
              if t.unit_id = uid then
                acc2 ++ [{ block_index := b.index, block_hash := b.hash,
                           transaction := t }]
              else acc2)
            acc)
        init
      = init ++ l.flatMap (fun b =>
          ((txsOf b).filter (fun t => t.unit_id = uid)).map (fun t =>
            { block_index := b.index, block_hash := b.hash,
              transaction := t })) by
    simpa using h bc.chain []
  intro l
  induction l with
  | nil => intro init; simp
  | cons b rest ih =>
      intro init
      simp only [List.foldl_cons, List.flatMap_cons, ih,
        unit_history_inner uid b.index b.hash, List.append_assoc]

theorem audit_inner (b : Block) :
    ∀ (ts : List Transaction) (init : List AuditRecord),
      ts.foldl
        (fun acc2 t =>
          acc2 ++ [{ block := b.index, timestamp := t.timestamp,
                     type := t.type, unit_id := t.unit_id,
                     status := t.status, block_hash := b.hash }])
        init
      = init ++ ts.map (auditEntry b) := by
  intro ts
  induction ts with
  | nil => intro init; simp
  | cons t rest ih =>
      intro init
      simp [ih, auditEntry]

theorem get_audit_trail_eq_blockTs (s e : String) (bc : BloodUnitBlockchain) :
    bc.get_audit_trail s e = auditTrailBlockTsSpec s e bc := by
  show bc.chain.foldl _ [] = _
  unfold auditTrailBlockTsSpec
  suffices h : ∀ (l : List Block) (init : List AuditRecord),
      l.foldl
        (fun acc b =>
          if pyLe s b.timestamp && pyLe b.timestamp e then
            (txsOf b).foldl
              (fun acc2 t =>
                acc2 ++ [{ block := b.index, timestamp := t.timestamp,
                           type := t.type, unit_id := t.unit_id,
                           status := t.status, block_hash := b.hash }])
              acc
          else acc)
        init
      = init ++ l.flatMap (fun b =>
          if pyLe s b.timestamp && pyLe b.timestamp e then
            (txsOf b).map (auditEntry b)
          else []) by
    simpa using h bc.chain []
  intro l
  induction l with
  | nil => intro init; simp
  | cons b rest ih =>
      intro init
      by_cases hc : (pyLe s b.timestamp && pyLe b.timestamp e) = true
      · simp only [List.foldl_cons, List.flatMap_cons, hc, if_true,
          audit_inner b, ih, List.append_assoc]
      · rw [Bool.not_eq_true] at hc
        simp only [List.foldl_cons, List.flatMap_cons, hc, Bool.false_eq_true,
          if_false, ih, List.nil_append, List.append_nil]

theorem addUnit_mem (acc : List String) (u v : String) :
    u ∈ addUnit acc v ↔ u ∈ acc ∨ u = v := by
  unfold BloodUnitBlockchain.addUnit
  by_cases h : v ∈ acc
  · rw [if_pos h]
    exact ⟨Or.inl, fun h2 => h2.elim id (fun he => he ▸ h)⟩
  · rw [if_neg h]
    simp

theorem addUnit_nodup (acc : List String) (v : String) (h : acc.Nodup) :
    (addUnit acc v).Nodup := by
  unfold BloodUnitBlockchain.addUnit
  by_cases hv : v ∈ acc
  · rw [if_pos hv]; exact h
  · rw [if_neg hv]
    simp [List.nodup_append, h, hv]

theorem status_fold_mem (s : String) :
    ∀ (ts : List Transaction) (acc : List String) (u : String),
      u ∈ ts.foldl
        (fun acc2 t => if t.status = s then addUnit acc2 t.unit_id else acc2)
        acc
      ↔ u ∈ acc ∨ ∃ t ∈ ts, t.status = s ∧ t.unit_id = u := by
  intro ts
  induction ts with
  | nil => intro acc u; simp
  | cons t rest ih =>
      intro acc u
      rw [List.foldl_cons]
      by_cases h : t.status = s
      · rw [if_pos h, ih, addUnit_mem]
        constructor
        · rintro (⟨hu | hu⟩ | ⟨t2, ht2, hs2, hu2⟩)
          · exact Or.inl hu
          · exact Or.inr ⟨t, List.mem_cons_self t rest, h, hu.symm⟩
          · exact Or.inr ⟨t2, List.mem_cons_of_mem t ht2, hs2, hu2⟩
        · rintro (hu | ⟨t2, ht2, hs2, hu2⟩)
          · exact Or.inl (Or.inl hu)
          · rcases List.mem_cons.mp ht2 with rfl | ht2
            · exact Or.inl (Or.inr hu2.symm)
            · exact Or.inr ⟨t2, ht2, hs2, hu2⟩
      · rw [if_neg h, ih]
        constructor
        · rintro (hu | ⟨t2, ht2, hs2, hu2⟩)
          · exact Or.inl hu
          · exact Or.inr ⟨t2, List.mem_cons_of_mem t ht2, hs2, hu2⟩
        · rintro (hu | ⟨t2, ht2, hs2, hu2⟩)
          · exact Or.inl hu
          · rcases List.mem_cons.mp ht2 with rfl | ht2
            · exact absurd hs2 h
            · exact Or.inr ⟨t2, ht2, hs2, hu2⟩

theorem status_fold_nodup (s : String) :
    ∀ (ts : List Transaction) (acc : List String), acc.Nodup →
      (ts.foldl
        (fun acc2 t => if t.status = s then addUnit acc2 t.unit_id else acc2)
        acc).Nodup := by
  intro ts
  induction ts with
  | nil => intro acc h; exact h
  | cons t rest ih =>
      intro acc h
      rw [List.foldl_cons]
      by_cases hs : t.status = s
      · rw [if_pos hs]
        exact ih _ (addUnit_nodup acc t.unit_id h)
      · rw [if_neg hs]
        exact ih _ h

theorem units_fold_mem (s : String) :
    ∀ (l : List Block) (acc : List String) (u : String),
      u ∈ l.foldl
        (fun acc b =>
          (txsOf b).foldl
            (fun acc2 t => if t.status = s then addUnit acc2 t.unit_id else acc2)
            acc)
        acc
      ↔ u ∈ acc ∨ ∃ b ∈ l, ∃ t ∈ txsOf b, t.status = s ∧ t.unit_id = u := by
  intro l
  induction l with
  | nil => intro acc u; simp
  | cons b rest ih =>
      intro acc u
      rw [List.foldl_cons, ih, status_fold_mem]
      constructor
      · rintro ((hu | ⟨t, ht, hs2, hu2⟩) | ⟨b2, hb2, t2, ht2, hs2, hu2⟩)
        · exact Or.inl hu
        · exact Or.inr ⟨b, List.mem_cons_self b rest, t, ht, hs2, hu2⟩
        · exact Or.inr ⟨b2, List.mem_cons_of_mem b hb2, t2, ht2, hs2, hu2⟩
      · rintro (hu | ⟨b2, hb2, t2, ht2, hs2, hu2⟩)
        · exact Or.inl (Or.inl hu)
        · rcases List.mem_cons.mp hb2 with rfl | hb2
          · exact Or.inl (Or.inr ⟨t2, ht2, hs2, hu2⟩)
          · exact Or.inr ⟨b2, hb2, t2, ht2, hs2, hu2⟩

theorem units_fold_nodup (s : String) :
    ∀ (l : List Block) (acc : List String), acc.Nodup →
      (l.foldl
        (fun acc b =>
          (txsOf b).foldl
            (fun acc2 t => if t.status = s then addUnit acc2 t.unit_id else acc2)
            acc)
        acc).Nodup := by
  intro l
  induction l with
  | nil => intro acc h; exact h
  | cons b rest ih =>
      intro acc h
      rw [List.foldl_cons]
      exact ih _ (status_fold_nodup s (txsOf b) acc h)

/-! ## Claims -/

/-- C1: for every ledger reachable by `Create` followed by any sequence of
Append (`add_transaction`; the `add_*_record` helpers are Append followed
by Seal) and Seal (`mine_pending_transactions`) calls, with no external
mutation, `is_chain_valid` returns true, and every block at position
`i + 1` links to the stored hash of the block at position `i` (that is,
`chain[i].previous_hash == chain[i-1].hash` for every `i ≥ 1`). -/
theorem c1_reachable_ledgers_validate (hashFn : BlockContent → String)
    (bc : BloodUnitBlockchain) (h : Reachable hashFn bc) :
    bc.is_chain_valid hashFn = true ∧
    ∀ (i : Nat) (hi : i + 1 < bc.chain.length),
      (bc.chain.get ⟨i + 1, hi⟩).previous_hash
        = (bc.chain.get ⟨i, Nat.lt_of_succ_lt hi⟩).hash := by
  obtain ⟨hne, hall, hlink⟩ := good_reachable hashFn bc h
  constructor
  · exact chainValid_of_good hashFn bc.chain hall hlink
  · intro i hi
    exact linked_get bc.chain hlink i hi

/-- Witness for C1: the concrete two-block ledger `ledger2`, built by
`create`, `add_transaction`, `mine_pending_transactions`, validates and
its block 1 links to the genesis hash. -/
theorem c1_witness :
    ledger2.is_chain_valid demoHash = true ∧
    (ledger2.chain.get ⟨1, by decide⟩).previous_hash
      = (ledger2.chain.get ⟨0, by decide⟩).hash := by
  have hr : Reachable demoHash ledger2 :=
    Reachable.sealStep 60 "t1" (ledger1.add_transaction demoTx) ledger2
      (some minedBlock2)
      (Reachable.append demoTx ledger1
        (Reachable.create 60 "t0" ledger1 (by rfl)))
      (by rfl)
  have h := c1_reachable_ledgers_validate demoHash ledger2 hr
  exact ⟨h.1, h.2 0 (by decide)⟩

/-- Counterexample to C2 as stated: `ledger2` validates, and overwriting
the `data` field of its sealed genesis block (index 0) — stored hash and
every other block untouched — still validates, because the
`is_chain_valid` loop starts at index 1 and never recomputes the genesis
block's hash. -/
theorem c2_counterexample :
    ledger2.is_chain_valid demoHash = true ∧
    ledger2TamperedGenesis ≠ ledger2 ∧
    ledger2TamperedGenesis.chain.length = ledger2.chain.length ∧
    ledger2TamperedGenesis.is_chain_valid demoHash = true := by
  decide

/-- C2 amended: overwriting any single field of a sealed block at index
`i ≥ 1` of a validating chain with a different value makes
`is_chain_valid` return false (for a content field this needs the digests
of the old and the new content to differ, i.e. no hash collision at the
tampered block — automatic for the injective-in-practice SHA-256).
Mutations of the genesis block's non-hash fields are not detected. -/
theorem c2_amended_tamper_detected (hashFn : BlockContent → String)
    (bc : BloodUnitBlockchain) (i : Nat) (b' : Block) (h1 : 1 ≤ i)
    (hi : i < bc.chain.length)
    (hv : bc.is_chain_valid hashFn = true)
    (hch : OneFieldChanged (bc.chain.get ⟨i, hi⟩) b')
    (hcol : b'.content ≠ (bc.chain.get ⟨i, hi⟩).content →
            hashFn b'.content ≠ hashFn (bc.chain.get ⟨i, hi⟩).content) :
    BloodUnitBlockchain.is_chain_valid hashFn
      { bc with chain := bc.chain.set i b' } = false := by
  obtain ⟨j, rfl⟩ : ∃ j, i = j + 1 :=
    ⟨i - 1, (Nat.succ_pred_eq_of_pos h1).symm⟩
  rcases Bool.eq_false_or_eq_true
      (BloodUnitBlockchain.is_chain_valid hashFn
        { bc with chain := bc.chain.set (j + 1) b' }) with hT | hF
  swap
  · exact hF
  exfalso
  have hvt : chainValid hashFn (bc.chain.set (j + 1) b') = true := hT
  have hi' : j + 1 < (bc.chain.set (j + 1) b').length := by
    rw [List.length_set]; exact hi
  have hget_i : (bc.chain.set (j + 1) b').get ⟨j + 1, hi'⟩ = b' := by
    rw [List.get_eq_getElem]
    exact List.getElem_set_self _
  have hget_j : (bc.chain.set (j + 1) b').get ⟨j, Nat.lt_of_succ_lt hi'⟩
      = bc.chain.get ⟨j, Nat.lt_of_succ_lt hi⟩ := by
    rw [List.get_eq_getElem, List.get_eq_getElem]
    exact List.getElem_set_ne (Nat.succ_ne_self j) _
  have hOk' : hashOk hashFn b' := by
    have h2 := chainValid_hashOk_get hashFn _ hvt j hi'
    rwa [hget_i] at h2
  have hlink' : b'.previous_hash
      = (bc.chain.get ⟨j, Nat.lt_of_succ_lt hi⟩).hash := by
    have h2 := chainValid_link_get hashFn _ hvt j hi'
    rwa [hget_i, hget_j] at h2
  have hOkOld : hashOk hashFn (bc.chain.get ⟨j + 1, hi⟩) :=
    chainValid_hashOk_get hashFn bc.chain hv j hi
  have hlinkOld : (bc.chain.get ⟨j + 1, hi⟩).previous_hash
      = (bc.chain.get ⟨j, Nat.lt_of_succ_lt hi⟩).hash :=
    chainValid_link_get hashFn bc.chain hv j hi
  simp only [hashOk, calculate_hash] at hOk' hOkOld
  rcases hch with ⟨hne2, heq⟩ | ⟨hne2, heq⟩ | ⟨hne2, heq⟩ | ⟨hne2, heq⟩ |
    ⟨hne2, heq⟩ | ⟨hne2, heq⟩
  · have hhash := congrArg Block.hash heq
    have hcne : b'.content ≠ (bc.chain.get ⟨j + 1, hi⟩).content :=
      fun hc => hne2 (congrArg BlockContent.index hc)
    exact hcol hcne (hOk'.symm.trans (hhash.trans hOkOld))
  · have hhash := congrArg Block.hash heq
    have hcne : b'.content ≠ (bc.chain.get ⟨j + 1, hi⟩).content :=
      fun hc => hne2 (congrArg BlockContent.timestamp hc)
    exact hcol hcne (hOk'.symm.trans (hhash.trans hOkOld))
  · have hhash := congrArg Block.hash heq
    have hcne : b'.content ≠ (bc.chain.get ⟨j + 1, hi⟩).content :=
      fun hc => hne2 (congrArg BlockContent.data hc)
    exact hcol hcne (hOk'.symm.trans (hhash.trans hOkOld))
  · exact hne2 (hlink'.trans hlinkOld.symm)
  · have hhash := congrArg Block.hash heq
    have hcne : b'.content ≠ (bc.chain.get ⟨j + 1, hi⟩).content :=
      fun hc => hne2 (congrArg BlockContent.nonce hc)
    exact hcol hcne (hOk'.symm.trans (hhash.trans hOkOld))
  · have hcnt := congrArg Block.content heq
    exact hne2 (hOk'.trans ((congrArg hashFn hcnt).trans hOkOld.symm))

/-- Witness for the amended C2: overwriting only the nonce of the sealed
block at index 1 of `ledger2` makes `is_chain_valid` return false. -/
theorem c2_amended_witness :
    BloodUnitBlockchain.is_chain_valid demoHash
      { ledger2 with chain := ledger2.chain.set 1 tamperedMined } = false :=
  c2_amended_tamper_detected demoHash ledger2 1 tamperedMined (by decide)
    (by decide) (by decide) (by decide) (by decide)

/-- C3: sealing a non-empty pending buffer appends exactly one block whose
index is the prior chain length, whose previous_hash is the prior tail
block's stored hash, whose records are exactly the pending records in
order, and whose mined hash starts with `difficulty` `'0'` characters; it
clears the pending buffer, returns the sealed block, and leaves every
previously existing block (and the difficulty) unchanged. -/
theorem c3_seal_appends_one_block (hashFn : BlockContent → String)
    (fuel : Nat) (ts : String) (bc bc' : BloodUnitBlockchain)
    (r : Option Block) (hpend : bc.pending_transactions ≠ [])
    (hs : bc.mine_pending_transactions hashFn fuel ts = some (bc', r)) :
    ∃ b lastB, r = some b ∧ bc.chain.getLast? = some lastB ∧
      b.index = bc.chain.length ∧ b.timestamp = ts ∧
      b.data = BlockData.txData bc.pending_transactions ∧
      b.previous_hash = lastB.hash ∧
      strTake b.hash bc.difficulty = zeros bc.difficulty ∧
      bc'.chain = bc.chain ++ [b] ∧ bc'.pending_transactions = [] ∧
      bc'.difficulty = bc.difficulty := by
  obtain ⟨b, lastB, h1, h2, h3, h4, h5, h6, _, h8, h9, h10, h11⟩ :=
    mine_pending_spec hashFn fuel ts bc bc' r hpend hs
  exact ⟨b, lastB, h1, h2, h3, h4, h5, h6, h8, h9, h10, h11⟩

/-- Witness for C3: sealing the concrete ledger whose pending buffer holds
`demoTx` yields `ledger2` and the sealed block `minedBlock2`. -/
theorem c3_witness :
    ∃ b lastB, (some minedBlock2 : Option Block) = some b ∧
      (ledger1.add_transaction demoTx).chain.getLast? = some lastB ∧
      b.index = (ledger1.add_transaction demoTx).chain.length ∧
      b.timestamp = "t1" ∧
      b.data = BlockData.txData
        (ledger1.add_transaction demoTx).pending_transactions ∧
      b.previous_hash = lastB.hash ∧
      strTake b.hash (ledger1.add_transaction demoTx).difficulty
        = zeros (ledger1.add_transaction demoTx).difficulty ∧
      ledger2.chain = (ledger1.add_transaction demoTx).chain ++ [b] ∧
      ledger2.pending_transactions = [] ∧
      ledger2.difficulty = (ledger1.add_transaction demoTx).difficulty :=
  c3_seal_appends_one_block demoHash 60 "t1" (ledger1.add_transaction demoTx)
    ledger2 (some minedBlock2) (by decide) (by rfl)

/-- C4: for every block of a reachable ledger's chain, recomputing the
canonical hash over the serialized content fields equals the stored hash,
recomputing twice gives the same value, and recomputing from the fields
of the block's exported `to_dict` dictionary reproduces the stored hash. -/
theorem c4_hash_recompute_round_trip (hashFn : BlockContent → String)
    (bc : BloodUnitBlockchain) (h : Reachable hashFn bc) (b : Block)
    (hb : b ∈ bc.chain) :
    calculate_hash hashFn b = b.hash ∧
    calculate_hash hashFn b = calculate_hash hashFn b ∧
    hashFromDict hashFn (Block.to_dict b) = b.hash := by
  obtain ⟨_, hall, _⟩ := good_reachable hashFn bc h
  have hok := hall b hb
  refine ⟨hok.symm, rfl, ?_⟩
  exact hok.symm

/-- Witness for C4: the sealed block at index 1 of the concrete `ledger2`. -/
theorem c4_witness :
    calculate_hash demoHash minedBlock2 = minedBlock2.hash ∧
    calculate_hash demoHash minedBlock2 = calculate_hash demoHash minedBlock2 ∧
    hashFromDict demoHash (Block.to_dict minedBlock2) = minedBlock2.hash :=
  c4_hash_recompute_round_trip demoHash ledger2
    (Reachable.sealStep 60 "t1" (ledger1.add_transaction demoTx) ledger2
      (some minedBlock2)
      (Reachable.append demoTx ledger1
        (Reachable.create 60 "t0" ledger1 (by rfl)))
      (by rfl))
    minedBlock2 (by decide)

/-- Counterexample to C5 as stated: in `ledger2` the sealed block carries
block timestamp `"t1"` but its record's own timestamp is `"t2"`; querying
the audit trail for the range `["t0", "t1"]` returns that record even
though its record timestamp `"t2"` is not within the range (the source
filters on the block timestamp, not the record timestamp), while the
record-timestamp filter promised by the claim returns nothing. -/
theorem c5_counterexample :
    (ledger2.get_audit_trail "t0" "t1").map AuditRecord.timestamp = ["t2"] ∧
    pyLe "t2" "t1" = false ∧
    auditTrailRecordTsSpec "t0" "t1" ledger2 = [] := by
  decide

/-- C5 amended: `get_audit_trail(start, end)` returns exactly the records,
in chain order and annotated with the owning block's index and hash, of
the blocks whose BLOCK timestamp lies inclusively within
`[start, end]` — the record's own timestamp is reported but not consulted
by the filter. -/
theorem c5_amended_audit_trail_filters_block_ts (s e : String)
    (bc : BloodUnitBlockchain) :
    bc.get_audit_trail s e = auditTrailBlockTsSpec s e bc :=
  get_audit_trail_eq_blockTs s e bc

/-- C6: `get_units_by_status(s)` returns, without duplicates, exactly the
unit ids having at least one record with status `s` anywhere in the chain
(the weaker "any record at that status" semantic). -/
theorem c6_units_by_status (s : String) (bc : BloodUnitBlockchain) :
    (bc.get_units_by_status s).Nodup ∧
    ∀ u : String, u ∈ bc.get_units_by_status s ↔
      ∃ b ∈ bc.chain, ∃ t ∈ txsOf b, t.status = s ∧ t.unit_id = u := by
  constructor
  · exact units_fold_nodup s bc.chain [] List.nodup_nil
  · intro u
    show u ∈ bc.chain.foldl _ [] ↔ _
    rw [units_fold_mem s bc.chain [] u]
    simp

/-- C7: sealing with an empty pending buffer is a no-op returning the
"nothing to seal" sentinel (Python's `None`, not an exception), leaving
the chain and the pending buffer unchanged. -/
theorem c7_seal_empty_is_noop (hashFn : BlockContent → String) (fuel : Nat)
    (ts : String) (bc : BloodUnitBlockchain)
    (h : bc.pending_transactions = []) :
    bc.mine_pending_transactions hashFn fuel ts = some (bc, none) :=
  mine_pending_nopend hashFn fuel ts bc h

/-- Witness for C7: sealing the concrete `ledger2` (empty pending buffer)
returns the sentinel and the unchanged ledger. -/
theorem c7_witness :
    ledger2.mine_pending_transactions demoHash 7 "t9" = some (ledger2, none) :=
  c7_seal_empty_is_noop demoHash 7 "t9" ledger2 (by decide)

/-- C8: `verify_unit_authenticity` returns a structured not-found result
(verified false, no further fields, not an exception) when the chain has
no record for the unit; otherwise its `verified` and `blockchain_valid`
fields equal `is_chain_valid`, `total_records` is the number of matching
records, and `current_status` is the status of the last entry of
`get_unit_history`, which lists the matching records in chain order. -/
theorem c8_verify_unit_structure (hashFn : BlockContent → String)
    (uid : String) (bc : BloodUnitBlockchain) :
    (bc.get_unit_history uid = [] →
      bc.verify_unit_authenticity hashFn uid =
        { verified := false, message := "Unit ID not found in blockchain",
          unit_id := uid }) ∧
    (bc.get_unit_history uid ≠ [] →
      (bc.verify_unit_authenticity hashFn uid).verified
          = bc.is_chain_valid hashFn ∧
      (bc.verify_unit_authenticity hashFn uid).blockchain_valid
          = some (bc.is_chain_valid hashFn) ∧
      (bc.verify_unit_authenticity hashFn uid).total_records
          = some (bc.get_unit_history uid).length ∧
      (bc.verify_unit_authenticity hashFn uid).current_status
          = (bc.get_unit_history uid).getLast?.map
              (fun e => e.transaction.status)) ∧
    bc.get_unit_history uid = unitHistorySpec uid bc := by
  refine ⟨?_, ?_, get_unit_history_eq_spec uid bc⟩
  · intro h
    simp only [BloodUnitBlockchain.verify_unit_authenticity]
    rw [if_pos h]
  · intro h
    simp only [BloodUnitBlockchain.verify_unit_authenticity]
    rw [if_neg h]
    refine ⟨rfl, rfl, rfl, ?_⟩
    cases hgl : (bc.get_unit_history uid).getLast? with
    | none => exact absurd (List.getLast?_eq_none_iff.mp hgl) h
    | some e => simp

/-- Witness for C8: on the concrete `ledger2`, the unknown unit `"NOPE"`
yields the structured not-found result and the known unit `"U1"` yields
the found-case fields. -/
theorem c8_witness :
    (ledger2.verify_unit_authenticity demoHash "NOPE" =
      { verified := false, message := "Unit ID not found in blockchain",
        unit_id := "NOPE" }) ∧
    ((ledger2.verify_unit_authenticity demoHash "U1").verified
        = ledger2.is_chain_valid demoHash ∧
      (ledger2.verify_unit_authenticity demoHash "U1").blockchain_valid
        = some (ledger2.is_chain_valid demoHash) ∧
      (ledger2.verify_unit_authenticity demoHash "U1").total_records
        = some (ledger2.get_unit_history "U1").length ∧
      (ledger2.verify_unit_authenticity demoHash "U1").current_status
        = (ledger2.get_unit_history "U1").getLast?.map
            (fun e => e.transaction.status)) :=
  ⟨(c8_verify_unit_structure demoHash "NOPE" ledger2).1 (by decide),
   (c8_verify_unit_structure demoHash "U1" ledger2).2.1 (by decide)⟩

/-- C9: `add_testing_record` seals immediately — afterwards the pending
buffer is empty and a new block has been appended whose last record is
the TESTING record, with status `"rejected"` exactly when the payload's
`passed` outcome (defaulting to true) is false and `"tested"` otherwise. -/
theorem c9_testing_record_status_and_seal (hashFn : BlockContent → String)
    (fuel : Nat) (tsRec tsBlock uid : String) (results : TestResults)
    (bc bc' : BloodUnitBlockchain) (r : Option Block)
    (hs : bc.add_testing_record hashFn fuel tsRec tsBlock uid results
            = some (bc', r)) :
    bc'.pending_transactions = [] ∧
    ∃ b, r = some b ∧ bc'.chain = bc.chain ++ [b] ∧
      b.data = BlockData.txData
        (bc.pending_transactions ++ [mkTestingTransaction uid results tsRec]) ∧
      (txsOf b).getLast?.map Transaction.status
        = some (if results.passed.getD true then "tested" else "rejected") := by
  unfold BloodUnitBlockchain.add_testing_record at hs
  have hpend : (bc.add_transaction
      (mkTestingTransaction uid results tsRec)).pending_transactions ≠ [] := by
    simp [BloodUnitBlockchain.add_transaction]
  obtain ⟨b, lastB, h1, _, _, _, h5, _, _, _, h9, h10, _⟩ :=
    mine_pending_spec hashFn fuel tsBlock _ bc' r hpend hs
  refine ⟨h10, b, h1, h9, h5, ?_⟩
  have hdata : b.data = BlockData.txData
      (bc.pending_transactions ++ [mkTestingTransaction uid results tsRec]) := h5
  show (txsOf b).getLast?.map Transaction.status = _
  unfold txsOf
  rw [hdata]
  rw [List.getLast?_concat]
  rfl

/-- Witness for C9: recording a failed test on the concrete `ledger2`
seals a new block whose record carries status `"rejected"`. -/
theorem c9_witness :
    ledger3.pending_transactions = [] ∧
    ∃ b, (some minedBlock3 : Option Block) = some b ∧
      ledger3.chain = ledger2.chain ++ [b] ∧
      b.data = BlockData.txData
        (ledger2.pending_transactions ++
          [mkTestingTransaction "U1" resultsFailed "t3"]) ∧
      (txsOf b).getLast?.map Transaction.status
        = some (if resultsFailed.passed.getD true then "tested"
                else "rejected") :=
  c9_testing_record_status_and_seal demoHash 60 "t3" "t4" "U1" resultsFailed
    ledger2 ledger3 (some minedBlock3) (by rfl)

/-- C10: when the `test_results` mapping has no `"passed"` key,
`add_testing_record` appends a record with status `"tested"` — the missing
outcome is silently treated as a passed test (`get("passed", True)`). -/
theorem c10_missing_passed_treated_as_tested (hashFn : BlockContent → String)
    (fuel : Nat) (tsRec tsBlock uid : String) (tid : Option String)
    (bc bc' : BloodUnitBlockchain) (r : Option Block)
    (hs : bc.add_testing_record hashFn fuel tsRec tsBlock uid
            { passed := none, technician_id := tid } = some (bc', r)) :
    ∃ b, r = some b ∧ bc'.chain = bc.chain ++ [b] ∧
      (txsOf b).getLast?.map Transaction.status = some "tested" := by
  unfold BloodUnitBlockchain.add_testing_record at hs
  have hpend : (bc.add_transaction
      (mkTestingTransaction uid { passed := none, technician_id := tid }
        tsRec)).pending_transactions ≠ [] := by
    simp [BloodUnitBlockchain.add_transaction]
  obtain ⟨b, lastB, h1, _, _, _, h5, _, _, _, h9, _, _⟩ :=
    mine_pending_spec hashFn fuel tsBlock _ bc' r hpend hs
  refine ⟨b, h1, h9, ?_⟩
  have hdata : b.data = BlockData.txData
      (bc.pending_transactions ++
        [mkTestingTransaction uid { passed := none, technician_id := tid }
          tsRec]) := h5
  show (txsOf b).getLast?.map Transaction.status = _
  unfold txsOf
  rw [hdata]
  rw [List.getLast?_concat]
  rfl

/-- Witness for C10: recording test results without a `"passed"` key on
the concrete `ledger3` seals a record with status `"tested"`. -/
theorem c10_witness :
    ∃ b, (some minedBlock4 : Option Block) = some b ∧
      ledger4.chain = ledger3.chain ++ [b] ∧
      (txsOf b).getLast?.map Transaction.status = some "tested" :=
  c10_missing_passed_treated_as_tested demoHash 60 "t5" "t6" "U1"
    (some "T9") ledger3 ledger4 (some minedBlock4) (by rfl)
